import Mathlib

/-!
Verification of the PP-OCRv5 C++ benchmark driver (`src/Benchmark.cpp`).

The development shallowly embeds the driver: paths and captured process
output are lists of characters, wall-clock latencies are rationals, the
filesystem seen by discovery is a finite tree, and the OCR engine plus the
external accuracy-scoring subprocess are oracles supplied per image.
Every definition is translated from the source file; the few definitions
that instead follow the specification's words (for refinement comparison)
say so in their doc comment.
-/

namespace Benchmark

/-- ASCII lowercase conversion, modelling the `::tolower` applied
characterwise in `isImageFile` (Benchmark.cpp line 45). -/
def asciiToLower (c : Char) : Char :=
  if 'A' ≤ c ∧ c ≤ 'Z' then Char.ofNat (c.toNat + 32) else c

/-- The suffix of `cs` starting at the last occurrence of `t`
(the occurrence itself included), or `none` when `t` does not occur.
Models `std::string::find_last_of` followed by `substr`. -/
def suffixFromLastChar (t : Char) : List Char → Option (List Char)
  | [] => none
  | c :: rest =>
    match suffixFromLastChar t rest with
    | some s => some s
    | none => if c = t then some (c :: rest) else none

/-- `isImageFile` (Benchmark.cpp lines 39-47): take the extension from the
last dot (dot included), lowercase it, and compare against the whitelist. -/
def isImageFile (filepath : List Char) : Bool :=
  match suffixFromLastChar '.' filepath with
  | none => false
  | some ext =>
    let e := ext.map asciiToLower
    e == ".jpg".toList || e == ".jpeg".toList || e == ".png".toList ||
      e == ".bmp".toList || e == ".tiff".toList

/-- A node of the filesystem tree seen by discovery.  A `file` is any
non-directory entry (`regular` records whether `stat` reports a regular
file, i.e. `S_ISREG`); a `dir` carries whether `opendir` succeeds on it
(`openable`) and its entries in `readdir` order. -/
inductive FSNode where
  | file (name : List Char) (regular : Bool) : FSNode
  | dir (name : List Char) (openable : Bool) (entries : List FSNode) : FSNode

/-- Body of the `readdir` loop of `collectImagesFromDirectory`
(Benchmark.cpp lines 69-81) for one directory entry: skip `.` and `..`,
recurse into subdirectories (an unopenable subdirectory yields nothing,
line 66), and keep a regular file whose full path passes `isImageFile`. -/
def collectEntry (dirPath : List Char) : FSNode → List (List Char)
  | .file name regular =>
    if name = ['.'] ∨ name = ['.', '.'] then []
    else if regular ∧ isImageFile (dirPath ++ '/' :: name) then [dirPath ++ '/' :: name]
    else []
  | .dir name op sub =>
    if name = ['.'] ∨ name = ['.', '.'] then []
    else if op then (sub.attach.map (fun e => collectEntry (dirPath ++ '/' :: name) e.1)).flatten
    else []
termination_by n => sizeOf n
decreasing_by
  have h := List.sizeOf_lt_of_mem e.2
  simp only [FSNode.dir.sizeOf_spec]
  omega

/-- `collectImagesFromDirectory` (Benchmark.cpp lines 64-83): if `opendir`
fails the function returns silently; otherwise every entry is processed in
order. -/
def collectImagesFromDirectory (dirPath : List Char) (openable : Bool)
    (entries : List FSNode) : List (List Char) :=
  if openable then (entries.map (collectEntry dirPath)).flatten else []

/-- What `stat` reports for one command-line argument: nothing (the path
does not exist), a non-directory entry, or a directory. -/
inductive ArgTarget where
  | missing : ArgTarget
  | file (regular : Bool) : ArgTarget
  | dir (openable : Bool) (entries : List FSNode) : ArgTarget

/-- One iteration of the argument loop of `collectImagePaths`
(Benchmark.cpp lines 89-101).  Returns the image paths it appends and the
warnings it prints to the diagnostic stream. -/
def collectArg : List Char × ArgTarget → List (List Char) × List (List Char)
  | (path, .dir op entries) => (collectImagesFromDirectory path op entries, [])
  | (path, .file regular) =>
    if regular ∧ isImageFile path then ([path], []) else ([], [path])
  | (path, .missing) => ([], [path])

/-- `collectImagePaths` (Benchmark.cpp lines 86-104) over the modelled
argument list, also gathering the warnings emitted on the diagnostic
stream. -/
def collectImagePaths : List (List Char × ArgTarget) → List (List Char) × List (List Char)
  | [] => ([], [])
  | a :: rest =>
    ((collectArg a).1 ++ (collectImagePaths rest).1,
     (collectArg a).2 ++ (collectImagePaths rest).2)

/-- Follows the spec's words (claim C6): the extension of a path is "the
substring after the last dot, compared case-insensitively" against the
whitelist jpg, jpeg, png, bmp, tiff. -/
def specExtMatches (path : List Char) : Bool :=
  match suffixFromLastChar '.' path with
  | none => false
  | some ext =>
    let e := (ext.drop 1).map asciiToLower
    e == "jpg".toList || e == "jpeg".toList || e == "png".toList ||
      e == "bmp".toList || e == "tiff".toList

/-- Follows the spec's words (claim C6): enumerate every regular file under
a directory entry, recursing through all subdirectories, with its full
path. -/
def specFileEntry (dirPath : List Char) : FSNode → List (List Char)
  | .file name regular => if regular then [dirPath ++ '/' :: name] else []
  | .dir name _ sub =>
    (sub.attach.map (fun e => specFileEntry (dirPath ++ '/' :: name) e.1)).flatten
termination_by n => sizeOf n
decreasing_by
  have h := List.sizeOf_lt_of_mem e.2
  simp only [FSNode.dir.sizeOf_spec]
  omega

/-- Follows the spec's words (claim C6): all regular files under a
directory's entry list. -/
def specFilesUnder (dirPath : List Char) (entries : List FSNode) : List (List Char) :=
  (entries.map (specFileEntry dirPath)).flatten

/-- A filesystem node is well formed when no node in it is named `.` or
`..` and every directory in it can be opened (true of any directory tree
that `readdir` actually reports and the process can read). -/
def FSNode.wf : FSNode → Bool
  | .file name _ => !(name == ['.']) && !(name == ['.', '.'])
  | .dir name op sub =>
    !(name == ['.']) && !(name == ['.', '.']) && op && sub.attach.all (fun e => e.1.wf)
termination_by n => sizeOf n
decreasing_by
  have h := List.sizeOf_lt_of_mem e.2
  simp only [FSNode.dir.sizeOf_spec]
  omega

/-- The per-quoted-string character count of the inner loop at
Benchmark.cpp lines 287-291: every character of the text except the
backslashes themselves (`if (c != '\\') total_chars++`). -/
def countTextChars (text : List Char) : ℕ :=
  (text.filter (fun c => c ≠ '\\')).length

/-- Dropping a prefix cannot lengthen a list (termination helper). -/
theorem dropWhile_length_le (p : Char → Bool) :
    ∀ l : List Char, (l.dropWhile p).length ≤ l.length
  | [] => le_refl _
  | a :: l => by
    rw [List.dropWhile_cons]
    split
    · exact Nat.le_succ_of_le (dropWhile_length_le p l)
    · exact le_refl _

/-- The quote-scanning loop of Benchmark.cpp lines 281-296: repeatedly find
an opening quote and the next quote after it, keep the text between them,
and resume after the closing quote; an unmatched opening quote ends the
scan with the partial text discarded. -/
def splitQuoted : List Char → List (List Char)
  | [] => []
  | c :: rest =>
    if c = '"' then
      match h : rest.dropWhile (fun x => x ≠ '"') with
      | [] => []
      | _ :: after => (rest.takeWhile (fun x => x ≠ '"')) :: splitQuoted after
    else splitQuoted rest
termination_by cs => cs.length
decreasing_by
  all_goals simp only [List.length_cons]
  · have h2 : (rest.dropWhile (fun x => x ≠ '"')).length ≤ rest.length :=
      dropWhile_length_le _ _
    rw [h] at h2
    simp only [List.length_cons] at h2
    omega
  · omega

/-- The suffix of `cs` just after the first occurrence of `pat`, or `none`
when `pat` (assumed nonempty) does not occur.  Models
`std::string::find` followed by taking the text after the match. -/
def findSuffixAfter (pat : List Char) : List Char → Option (List Char)
  | [] => none
  | c :: rest =>
    if pat.isPrefixOf (c :: rest) then some ((c :: rest).drop pat.length)
    else findSuffixAfter pat rest

/-- The search marker of Benchmark.cpp line 271. -/
def recTextsMarker : List Char := "\"rec_texts\": [".toList

/-- Character counting for one captured serialization (Benchmark.cpp lines
268-298): find `"rec_texts": [` (whose final character is the `[` the code
then locates), require a `]` after it, and sum the per-string counts over
the quote scan of the array content. -/
def countCharsInJson (json : List Char) : ℕ :=
  match findSuffixAfter recTextsMarker json with
  | none => 0
  | some rest =>
    if rest.contains ']' then
      ((splitQuoted (rest.takeWhile (fun c => c ≠ ']'))).map countTextChars).sum
    else 0

/-- Total characters for one image: the counts of every captured output
serialization summed (Benchmark.cpp lines 258-300 accumulate into one
`total_chars`). -/
def countTotalChars (jsons : List (List Char)) : ℕ :=
  (jsons.map countCharsInJson).sum

/-- Follows the spec's words (claim C8): each character of the serialized
text field counts one, except that "a character preceded by a backslash
escape counts as zero width".  `prev` is the preceding character. -/
def specEscapedCountAux : Option Char → List Char → ℕ
  | _, [] => 0
  | prev, c :: rest =>
    (if prev = some '\\' then 0 else 1) + specEscapedCountAux (some c) rest

/-- Follows the spec's words (claim C8): count of characters of one
serialized transcript with backslash-escaped characters excluded. -/
def specEscapedCount (text : List Char) : ℕ :=
  specEscapedCountAux none text

/-- The serialized content of a `rec_texts` array holding the given quoted
strings, separated as the engine prints them. -/
def quoteJoin : List (List Char) → List Char
  | [] => []
  | [t] => '"' :: (t ++ ['"'])
  | t :: rest => '"' :: (t ++ '"' :: ',' :: ' ' :: quoteJoin rest)

/-- A minimal captured serialization containing a `rec_texts` array with
the given serialized transcripts. -/
def mkRecTextsJson (ts : List (List Char)) : List Char :=
  recTextsMarker ++ quoteJoin ts ++ [']']

/-- Outcome of one `infer.Predict` call (Benchmark.cpp line 248): either it
throws, or it returns in `latency` milliseconds a sequence of output
objects, each modelled by the serialization its `Print()` produces
(captured at lines 261-268). -/
inductive RunResult where
  | throws : RunResult
  | ok (latency : ℚ) (outputs : List (List Char)) : RunResult

/-- Outcome of the external accuracy-scoring call for one image:
`execOk` is the return value of `ExecuteCommand` (Benchmark.cpp line 353,
true iff `popen` worked and the script exited with status 0), `output` the
captured text, and `parsedAccuracy` abstracts the numeric value the parse
at lines 372-384 extracts from the text after the marker (0.0 when the
`character_accuracy` field is absent). -/
structure ScoringOutcome where
  execOk : Bool
  output : List Char
  parsedAccuracy : ℚ

/-- Everything the environment decides about one image: its path, what the
engine does on each of the repeated `Predict` calls (indexed by run
number), and what the scoring subprocess does. -/
structure ImageCase where
  path : List Char
  predict : ℕ → RunResult
  scoring : ScoringOutcome

/-- The repetition loop of Benchmark.cpp lines 245-304, run for `n` more
iterations starting at run index `idx`: each run appends its latency to
`times`; the run with index 0 installs its outputs as `final_outputs`
(line 255-256); a throwing run aborts the whole loop. -/
def runLoopAux (predict : ℕ → RunResult) :
    ℕ → ℕ → List ℚ → List (List Char) → Option (List ℚ × List (List Char))
  | 0, _, times, finals => some (times, finals)
  | n + 1, idx, times, finals =>
    match predict idx with
    | .throws => none
    | .ok lat outs =>
      runLoopAux predict n (idx + 1) (times ++ [lat]) (if idx = 0 then outs else finals)

/-- The repetition count, the literal `3` of Benchmark.cpp line 245. -/
def repetitions : ℕ := 3

/-- The full repetition loop for one image: `none` when some run throws,
otherwise the collected run times and the retained first-run outputs. -/
def runRepetitionLoop (predict : ℕ → RunResult) : Option (List ℚ × List (List Char)) :=
  runLoopAux predict repetitions 0 [] []

/-- Average latency (Benchmark.cpp lines 307-311): the sum of the run
times divided by their number. -/
def avgLatency (times : List ℚ) : ℚ :=
  times.sum / times.length

/-- `avg_fps` (Benchmark.cpp line 313), with its guard against a
non-positive average latency. -/
def avgFps (avg : ℚ) : ℚ :=
  if avg > 0 then 1000 / avg else 0

/-- `chars_per_second` (Benchmark.cpp line 314), with the same guard. -/
def charsPerSecond (totalChars : ℕ) (avg : ℚ) : ℚ :=
  if avg > 0 then (totalChars : ℚ) * 1000 / avg else 0

/-- Basename extraction for the scoring request and the result line
(Benchmark.cpp lines 340-344): erase everything up to and including the
last slash. -/
def basenameOf (path : List Char) : List Char :=
  match suffixFromLastChar '/' path with
  | some (_ :: rest) => rest
  | _ => path

/-- The marker the driver looks for in the scoring output
(Benchmark.cpp line 367). -/
def singleAccMarker : List Char := "SINGLE_ACC: ".toList

/-- One emitted `PER_IMAGE_RESULT` line (Benchmark.cpp lines 357-362 and
387-392). -/
structure PerImageRecord where
  filename : List Char
  inference_ms : ℚ
  fps : ℚ
  chars_per_second : ℚ
  total_chars : ℕ
  accuracy : ℚ
deriving DecidableEq

/-- The mutable driver state of the batch loop (Benchmark.cpp lines
228-230), together with the stream of emitted `PER_IMAGE_RESULT` lines. -/
structure BatchState where
  inference_times : List ℚ
  successful_count : ℕ
  failed_count : ℕ
  records : List PerImageRecord
deriving DecidableEq

/-- The state before the batch loop. -/
def initialState : BatchState :=
  { inference_times := [], successful_count := 0, failed_count := 0, records := [] }

/-- One iteration of the per-image loop (Benchmark.cpp lines 233-415).
A run that throws is caught by the handler at line 402: `failed_count` is
incremented and nothing else changes.  Otherwise the average latency is
pushed (line 316) and then:
if `ExecuteCommand` failed, a record with accuracy 0.0 is emitted and the
iteration ends with `continue` (lines 353-364, skipping line 399);
if the marker is found, a record with the parsed accuracy is emitted and
`successful_count` is incremented (lines 369-400);
if the marker is missing, only errors are logged — no record — and
`successful_count` is still incremented (lines 394-400). -/
def stepImage (st : BatchState) (c : ImageCase) : BatchState :=
  match runRepetitionLoop c.predict with
  | none => { st with failed_count := st.failed_count + 1 }
  | some (times, finals) =>
    let totalChars := countTotalChars finals
    let avg := avgLatency times
    let rec0 : PerImageRecord :=
      { filename := basenameOf c.path, inference_ms := avg, fps := avgFps avg,
        chars_per_second := charsPerSecond totalChars avg,
        total_chars := totalChars, accuracy := 0 }
    let recAcc : PerImageRecord :=
      { rec0 with accuracy := c.scoring.parsedAccuracy }
    let st1 := { st with inference_times := st.inference_times ++ [avg] }
    if c.scoring.execOk = false then
      { st1 with records := st1.records ++ [rec0] }
    else if (findSuffixAfter singleAccMarker c.scoring.output).isSome then
      { st1 with records := st1.records ++ [recAcc],
                 successful_count := st1.successful_count + 1 }
    else
      { st1 with successful_count := st1.successful_count + 1 }

/-- The whole batch loop over the discovered images. -/
def runBenchmark (cases : List ImageCase) : BatchState :=
  cases.foldl stepImage initialState

/-- The record the per-image loop emits for one image, when it emits
one. -/
def recordOf (c : ImageCase) : Option PerImageRecord :=
  match runRepetitionLoop c.predict with
  | none => none
  | some (times, finals) =>
    let totalChars := countTotalChars finals
    let avg := avgLatency times
    if c.scoring.execOk = false then
      some { filename := basenameOf c.path, inference_ms := avg, fps := avgFps avg,
             chars_per_second := charsPerSecond totalChars avg,
             total_chars := totalChars, accuracy := 0 }
    else if (findSuffixAfter singleAccMarker c.scoring.output).isSome then
      some { filename := basenameOf c.path, inference_ms := avg, fps := avgFps avg,
             chars_per_second := charsPerSecond totalChars avg,
             total_chars := totalChars, accuracy := c.scoring.parsedAccuracy }
    else none

/-- The average latency the per-image loop appends to `inference_times`
for one image, when the repetition loop completes. -/
def timeOf (c : ImageCase) : Option ℚ :=
  match runRepetitionLoop c.predict with
  | none => none
  | some (times, _) => some (avgLatency times)

/-- How much one image adds to `successful_count`. -/
def succIncr (c : ImageCase) : ℕ :=
  match runRepetitionLoop c.predict with
  | none => 0
  | some _ => if c.scoring.execOk = false then 0 else 1

/-- How much one image adds to `failed_count`. -/
def failIncr (c : ImageCase) : ℕ :=
  match runRepetitionLoop c.predict with
  | none => 1
  | some _ => 0

/-- An image whose repetition loop completes but whose scoring subprocess
fails to execute: the `continue` path of Benchmark.cpp line 363. -/
def degradedScoring (c : ImageCase) : Bool :=
  (runRepetitionLoop c.predict).isSome && !c.scoring.execOk

/-- An image whose repetition loop completes (no run throws). -/
def completesLoop (c : ImageCase) : Bool :=
  (runRepetitionLoop c.predict).isSome

/-- The end-of-run statistics block (Benchmark.cpp lines 424-476). -/
structure BatchSummary where
  total_inference_time : ℚ
  min_time : ℚ
  max_time : ℚ
  avg_inference_time : ℚ
  avg_fps : ℚ
  total_fps : ℚ
  success_rate : ℚ
deriving DecidableEq

/-- The statistics computation (Benchmark.cpp lines 424-449): performed
only when `inference_times` is nonempty; min and max start from the first
collected time and fold over the list; `avg_fps` divides 1000 by the
average; `total_fps` multiplies `successful_count` by 1000 and divides by
the summed times; the success rate divides `successful_count` by the
number of discovered images. -/
def mkSummary (st : BatchState) (totalImages : ℕ) : Option BatchSummary :=
  match st.inference_times with
  | [] => none
  | t0 :: rest =>
    let total := (t0 :: rest).sum
    let avg := total / (t0 :: rest).length
    some { total_inference_time := total,
           min_time := (t0 :: rest).foldl min t0,
           max_time := (t0 :: rest).foldl max t0,
           avg_inference_time := avg,
           avg_fps := 1000 / avg,
           total_fps := (st.successful_count : ℚ) * 1000 / total,
           success_rate := 100 * (st.successful_count : ℚ) / (totalImages : ℚ) }

/-- The image cases the batch loop runs for a discovered path list, given
the environment's per-path behavior. -/
def casesOf (oracle : List Char → (ℕ → RunResult) × ScoringOutcome)
    (paths : List (List Char)) : List ImageCase :=
  paths.map (fun p => { path := p, predict := (oracle p).1, scoring := (oracle p).2 })

/-- The batch state the program reaches for the given arguments: when no
argument is given or no image is discovered the loop never runs. -/
def batchOf (args : List (List Char × ArgTarget))
    (oracle : List Char → (ℕ → RunResult) × ScoringOutcome) : BatchState :=
  if args.isEmpty then initialState
  else runBenchmark (casesOf oracle (collectImagePaths args).1)

/-- The process exit code (Benchmark.cpp lines 165-171, 178-182 and 481):
1 with no arguments, 1 when discovery finds nothing, otherwise 1 exactly
when some image failed. -/
def exitCode (args : List (List Char × ArgTarget))
    (oracle : List Char → (ℕ → RunResult) × ScoringOutcome) : ℕ :=
  if args.isEmpty then 1
  else if (collectImagePaths args).1.isEmpty then 1
  else if (runBenchmark (casesOf oracle (collectImagePaths args).1)).failed_count > 0 then 1
  else 0

/-- The image case used to witness claim C4: 500 ms per run, an empty
output list. -/
def metricsWitnessCase : ImageCase :=
  { path := "images/a.png".toList,
    predict := fun _ => .ok 500 [],
    scoring := { execOk := true, output := "SINGLE_ACC: x".toList, parsedAccuracy := 1 } }

/-- The record `metricsWitnessCase` emits. -/
def metricsWitnessRecord : PerImageRecord :=
  { filename := "a.png".toList,
    inference_ms := avgLatency [500, 500, 500],
    fps := avgFps (avgLatency [500, 500, 500]),
    chars_per_second := charsPerSecond (countTotalChars []) (avgLatency [500, 500, 500]),
    total_chars := countTotalChars [], accuracy := 1 }

/-- A successfully scoring image case used by the batch witnesses. -/
def mkOkCase (name : String) : ImageCase :=
  { path := name.toList, predict := fun _ => .ok 300 [],
    scoring := { execOk := true, output := "SINGLE_ACC: ok".toList, parsedAccuracy := 1 } }

/-- An image case whose inference throws. -/
def throwingCase : ImageCase :=
  { path := "img3.png".toList, predict := fun _ => .throws,
    scoring := { execOk := true, output := "SINGLE_ACC: ok".toList, parsedAccuracy := 1 } }

/-- Five discovered images of which the third throws during inference. -/
def fiveCases : List ImageCase :=
  [mkOkCase "img1.png", mkOkCase "img2.png", throwingCase,
   mkOkCase "img4.png", mkOkCase "img5.png"]

/-- An image case whose scoring subprocess exits nonzero. -/
def degradedCase : ImageCase :=
  { path := "imgD.png".toList, predict := fun _ => .ok 250 [],
    scoring := { execOk := false, output := "Traceback".toList, parsedAccuracy := 0 } }

/-- An image case whose three runs succeed and whose scoring subprocess
exits with status 0 but prints no `SINGLE_ACC: ` marker. -/
def markerMissingCase : ImageCase :=
  { path := "images/m.png".toList, predict := fun _ => .ok 250 [],
    scoring := { execOk := true, output := "Traceback: boom".toList, parsedAccuracy := 0 } }

/-- The environment used in the claim C5 counterexample. -/
def nilOracle : List Char → (ℕ → RunResult) × ScoringOutcome :=
  fun _ => (fun _ => .throws,
    { execOk := true, output := [], parsedAccuracy := 0 })

/-- A concrete directory tree without subdirectories for the claim C6
witness. -/
def flatEntries : List FSNode :=
  [.file "a.JPG".toList true, .file "notes.txt".toList true,
   .file "b.png".toList false]

/-- The serialized result used in the claim C8 counterexample: one
recognized region whose transcript is a single literal backslash, which
the engine serializes as two backslash characters. -/
def backslashJson : List Char := mkRecTextsJson [['\\', '\\']]

/-- One loop iteration decomposed into its four per-image contributions. -/
theorem stepImage_eq (st : BatchState) (c : ImageCase) :
    stepImage st c =
      { inference_times := st.inference_times ++ (timeOf c).toList,
        successful_count := st.successful_count + succIncr c,
        failed_count := st.failed_count + failIncr c,
        records := st.records ++ (recordOf c).toList } := by
  unfold stepImage timeOf succIncr failIncr recordOf
  cases hr : runRepetitionLoop c.predict with
  | none => simp
  | some v =>
    obtain ⟨times, finals⟩ := v
    by_cases he : c.scoring.execOk = false
    · simp [he]
    · by_cases hm : (findSuffixAfter singleAccMarker c.scoring.output).isSome
      · simp [he, hm]
      · simp [he, hm]

/-- The batch loop from any starting state appends the per-image
contributions of the processed cases. -/
theorem foldl_stepImage_eq (cases : List ImageCase) : ∀ st : BatchState,
    cases.foldl stepImage st =
      { inference_times := st.inference_times ++ cases.filterMap timeOf,
        successful_count := st.successful_count + (cases.map succIncr).sum,
        failed_count := st.failed_count + (cases.map failIncr).sum,
        records := st.records ++ cases.filterMap recordOf } := by
  induction cases with
  | nil => intro st; simp
  | cons c rest ih =>
    intro st
    simp only [List.foldl_cons, List.filterMap_cons, List.map_cons, List.sum_cons]
    rw [stepImage_eq, ih]
    cases ht : timeOf c <;> cases hc : recordOf c <;>
      simp [Nat.add_assoc, List.append_assoc]

/-- Closed form of the final batch state. -/
theorem runBenchmark_eq (cases : List ImageCase) :
    runBenchmark cases =
      { inference_times := cases.filterMap timeOf,
        successful_count := (cases.map succIncr).sum,
        failed_count := (cases.map failIncr).sum,
        records := cases.filterMap recordOf } := by
  unfold runBenchmark
  rw [foldl_stepImage_eq]
  simp [initialState]

/-- Claim C2: for a successfully processed image the repetition loop
performs exactly 3 timed runs, so the latency list has length exactly 3;
only the first run's outputs are retained (runs 2 and 3 are discarded);
and the reported average latency is the arithmetic mean of the 3
timings. -/
theorem repetition_loop_three_runs_first_retained
    (predict : ℕ → RunResult) (lat : ℕ → ℚ) (outs : ℕ → List (List Char))
    (h : ∀ i, i < repetitions → predict i = .ok (lat i) (outs i)) :
    runRepetitionLoop predict = some ([lat 0, lat 1, lat 2], outs 0) ∧
    [lat 0, lat 1, lat 2].length = repetitions ∧
    avgLatency [lat 0, lat 1, lat 2] = (lat 0 + lat 1 + lat 2) / 3 := by
  have h0 := h 0 (by norm_num [repetitions])
  have h1 := h 1 (by norm_num [repetitions])
  have h2 := h 2 (by norm_num [repetitions])
  refine ⟨?_, by simp [repetitions], ?_⟩
  · unfold runRepetitionLoop repetitions
    simp [runLoopAux, h0, h1, h2]
  · unfold avgLatency
    simp
    ring

/-- Witness for claim C2 at a concrete engine behavior. -/
theorem repetition_loop_three_runs_witness :
    runRepetitionLoop (fun i => .ok (100 * ((i : ℚ) + 1)) [['a', 'b']]) =
      some ([100 * ((0 : ℚ) + 1), 100 * ((1 : ℚ) + 1), 100 * ((2 : ℚ) + 1)], [['a', 'b']]) ∧
    [100 * ((0 : ℚ) + 1), 100 * ((1 : ℚ) + 1), 100 * ((2 : ℚ) + 1)].length = repetitions ∧
    avgLatency [100 * ((0 : ℚ) + 1), 100 * ((1 : ℚ) + 1), 100 * ((2 : ℚ) + 1)] =
      (100 * ((0 : ℚ) + 1) + 100 * ((1 : ℚ) + 1) + 100 * ((2 : ℚ) + 1)) / 3 :=
  repetition_loop_three_runs_first_retained
    (fun i => .ok (100 * ((i : ℚ) + 1)) [['a', 'b']])
    (fun i => 100 * ((i : ℚ) + 1)) (fun _ => [['a', 'b']])
    (fun _ _ => rfl)

/-- Claim C4: every emitted record satisfies the guarded metric formulas:
when the average latency is positive, `fps = 1000 / avg` and
`chars_per_second = total_chars * 1000 / avg`; when it is not positive,
both are exactly 0 (totality of the rational model rules out a division
error or a non-finite value). -/
theorem record_metrics_guarded (c : ImageCase) (r : PerImageRecord)
    (h : recordOf c = some r) :
    (r.inference_ms > 0 →
       r.fps = 1000 / r.inference_ms ∧
       r.chars_per_second = (r.total_chars : ℚ) * 1000 / r.inference_ms) ∧
    (r.inference_ms ≤ 0 → r.fps = 0 ∧ r.chars_per_second = 0) := by
  unfold recordOf at h
  have hr : r.fps = avgFps r.inference_ms ∧
      r.chars_per_second = charsPerSecond r.total_chars r.inference_ms := by
    split at h
    · exact absurd h (by simp)
    · split at h
      · simp only [Option.some.injEq] at h
        subst h
        exact ⟨rfl, rfl⟩
      · split at h
        · simp only [Option.some.injEq] at h
          subst h
          exact ⟨rfl, rfl⟩
        · exact absurd h (by simp)
  constructor
  · intro hpos
    rw [hr.1, hr.2]
    unfold avgFps charsPerSecond
    rw [if_pos hpos, if_pos hpos]
    exact ⟨rfl, rfl⟩
  · intro hnonpos
    rw [hr.1, hr.2]
    unfold avgFps charsPerSecond
    rw [if_neg (by exact not_lt.mpr hnonpos), if_neg (by exact not_lt.mpr hnonpos)]
    exact ⟨rfl, rfl⟩

/-- Witness for claim C4: the concrete record (500 ms, 2 characters) has
fps 2.00 and the guard facts hold for it. -/
theorem record_metrics_guarded_witness :
    (metricsWitnessRecord.inference_ms > 0 →
       metricsWitnessRecord.fps = 1000 / metricsWitnessRecord.inference_ms ∧
       metricsWitnessRecord.chars_per_second =
         (metricsWitnessRecord.total_chars : ℚ) * 1000 / metricsWitnessRecord.inference_ms) ∧
    (metricsWitnessRecord.inference_ms ≤ 0 →
       metricsWitnessRecord.fps = 0 ∧ metricsWitnessRecord.chars_per_second = 0) :=
  record_metrics_guarded metricsWitnessCase metricsWitnessRecord (by rfl)

/-- `failIncr` is the indicator of a failing repetition loop. -/
theorem failIncr_eq (c : ImageCase) :
    failIncr c = if completesLoop c = true then 0 else 1 := by
  unfold failIncr completesLoop
  cases runRepetitionLoop c.predict <;> simp

/-- An image whose repetition loop fails contributes no record. -/
theorem recordOf_eq_none_of_not_completes (c : ImageCase)
    (h : completesLoop c = false) : recordOf c = none := by
  unfold completesLoop at h
  unfold recordOf
  cases hr : runRepetitionLoop c.predict with
  | none => rfl
  | some v => rw [hr] at h; simp at h

/-- An image whose repetition loop fails contributes no latency sample. -/
theorem timeOf_eq_none_of_not_completes (c : ImageCase)
    (h : completesLoop c = false) : timeOf c = none := by
  unfold completesLoop at h
  unfold timeOf
  cases hr : runRepetitionLoop c.predict with
  | none => rfl
  | some v => rw [hr] at h; simp at h

/-- The failed counter counts exactly the images whose repetition loop
fails. -/
theorem sum_failIncr_eq (cases : List ImageCase) :
    (cases.map failIncr).sum = (cases.filter (fun c => !(completesLoop c))).length := by
  induction cases with
  | nil => rfl
  | cons c rest ih =>
    simp only [List.map_cons, List.sum_cons, List.filter_cons]
    rw [failIncr_eq]
    by_cases h : completesLoop c = true
    · simp [h, ih]
    · simp only [Bool.not_eq_true] at h
      simp [h, ih, Nat.add_comm]

theorem failed_count_eq (cases : List ImageCase) :
    (runBenchmark cases).failed_count =
      (cases.filter (fun c => !(completesLoop c))).length := by
  rw [runBenchmark_eq]
  exact sum_failIncr_eq cases

/-- Claim C7: an inference exception is caught inside the per-image loop
body: the image adds one to `failed_count`, contributes no
`PER_IMAGE_RESULT` record and no latency sample, and the records of the
other images are emitted in discovery order (the emitted record stream is
the in-order `filterMap` of the per-image record function). -/
theorem failure_isolation (cases : List ImageCase) :
    (runBenchmark cases).failed_count =
      (cases.filter (fun c => !(completesLoop c))).length ∧
    (∀ c, completesLoop c = false → failIncr c = 1 ∧ recordOf c = none ∧ timeOf c = none) ∧
    (runBenchmark cases).records = cases.filterMap recordOf ∧
    (runBenchmark cases).inference_times = cases.filterMap timeOf := by
  refine ⟨failed_count_eq cases, ?_, ?_, ?_⟩
  · intro c h
    refine ⟨?_, recordOf_eq_none_of_not_completes c h,
      timeOf_eq_none_of_not_completes c h⟩
    rw [failIncr_eq, h]
    simp
  · rw [runBenchmark_eq]
  · rw [runBenchmark_eq]

/-- Witness for claim C7: five images, the third throwing, give
failed_count 1, successful_count 4, and records for images 1, 2, 4, 5 in
discovery order. -/
theorem failure_isolation_witness :
    (runBenchmark fiveCases).failed_count = 1 ∧
    failIncr throwingCase = 1 ∧ recordOf throwingCase = none ∧
    timeOf throwingCase = none ∧
    (runBenchmark fiveCases).records.map PerImageRecord.filename =
      ["img1.png".toList, "img2.png".toList, "img4.png".toList, "img5.png".toList] ∧
    (runBenchmark fiveCases).successful_count = 4 := by
  have h := failure_isolation fiveCases
  have h3 := h.2.1 throwingCase (by decide)
  refine ⟨?_, h3.1, h3.2.1, h3.2.2, ?_, by decide⟩
  · rw [h.1]; decide
  · rw [h.2.2.1]; decide

/-- Per-image accounting: each image adds one to exactly one of
`successful_count`, `failed_count`, or the set of degraded-scoring images
that the `continue` at line 363 removes from both counters. -/
theorem incr_partition (c : ImageCase) :
    succIncr c + failIncr c + (if degradedScoring c = true then 1 else 0) = 1 := by
  unfold succIncr failIncr degradedScoring
  cases hr : runRepetitionLoop c.predict with
  | none => simp
  | some v =>
    by_cases he : c.scoring.execOk = false
    · simp [he]
    · have he2 : c.scoring.execOk = true := by
        revert he
        cases c.scoring.execOk <;> simp
      simp [he, he2]

/-- Summed accounting over the batch. -/
theorem counts_partition (cases : List ImageCase) :
    (cases.map succIncr).sum + (cases.map failIncr).sum +
      (cases.filter degradedScoring).length = cases.length := by
  induction cases with
  | nil => rfl
  | cons c rest ih =>
    simp only [List.map_cons, List.sum_cons, List.filter_cons, List.length_cons]
    have hc := incr_partition c
    by_cases h : degradedScoring c = true
    · rw [if_pos h] at hc
      simp only [h, if_pos]
      simp only [List.length_cons]
      omega
    · rw [if_neg h] at hc
      simp only [Bool.not_eq_true] at h
      simp only [h]
      simp only [Bool.false_eq_true, if_false]
      omega

/-- A latency sample is collected exactly for the images whose repetition
loop completes. -/
theorem times_length_eq (cases : List ImageCase) :
    (cases.filterMap timeOf).length = (cases.filter completesLoop).length := by
  induction cases with
  | nil => rfl
  | cons c rest ih =>
    simp only [List.filterMap_cons, List.filter_cons]
    have hiff : (timeOf c).isSome = completesLoop c := by
      unfold timeOf completesLoop
      cases runRepetitionLoop c.predict <;> rfl
    cases hx : timeOf c with
    | none =>
      have h2 : completesLoop c = false := by rw [← hiff, hx]; rfl
      simp [hx, h2, ih]
    | some t =>
      have h2 : completesLoop c = true := by rw [← hiff, hx]; rfl
      simp [hx, h2, ih]

/-- Claim C9: on the nonzero-exit scoring path the loop `continue`s after
emitting the record, so the image increments neither counter although its
average latency was already appended; hence `successful_count +
failed_count` can be strictly below the number of discovered images, and
the latency list counts every image whose repetition loop completed,
degraded ones included. -/
theorem degraded_scoring_accounting (cases : List ImageCase) :
    (∀ c, degradedScoring c = true →
        succIncr c = 0 ∧ failIncr c = 0 ∧ (timeOf c).isSome = true ∧
        ∃ r, recordOf c = some r ∧ r.accuracy = 0) ∧
    (runBenchmark cases).successful_count + (runBenchmark cases).failed_count +
        (cases.filter degradedScoring).length = cases.length ∧
    (runBenchmark cases).inference_times.length =
        (cases.filter completesLoop).length ∧
    ((cases.filter degradedScoring).length > 0 →
        (runBenchmark cases).successful_count + (runBenchmark cases).failed_count <
          cases.length) := by
  have hpart : (runBenchmark cases).successful_count + (runBenchmark cases).failed_count +
      (cases.filter degradedScoring).length = cases.length := by
    rw [runBenchmark_eq]
    exact counts_partition cases
  refine ⟨?_, hpart, ?_, ?_⟩
  · intro c h
    unfold degradedScoring at h
    simp only [Bool.and_eq_true] at h
    obtain ⟨hsome, hexec⟩ := h
    have hexec2 : c.scoring.execOk = false := by
      revert hexec
      cases c.scoring.execOk <;> simp
    obtain ⟨⟨times, finals⟩, hr⟩ := Option.isSome_iff_exists.mp hsome
    refine ⟨?_, ?_, ?_, ?_⟩
    · unfold succIncr
      rw [hr]
      simp [hexec2]
    · unfold failIncr
      rw [hr]
    · unfold timeOf
      rw [hr]
      rfl
    · unfold recordOf
      rw [hr]
      refine ⟨{ filename := basenameOf c.path, inference_ms := avgLatency times,
                fps := avgFps (avgLatency times),
                chars_per_second := charsPerSecond (countTotalChars finals) (avgLatency times),
                total_chars := countTotalChars finals, accuracy := 0 }, ?_, rfl⟩
      simp [hexec2]
  · rw [runBenchmark_eq]
    exact times_length_eq cases
  · intro hpos
    omega

/-- Witness for claim C9: one healthy image plus one degraded-scoring
image give `successful_count + failed_count = 1 < 2` while both latencies
were collected. -/
theorem degraded_scoring_accounting_witness :
    (succIncr degradedCase = 0 ∧ failIncr degradedCase = 0 ∧
      (timeOf degradedCase).isSome = true ∧
      ∃ r, recordOf degradedCase = some r ∧ r.accuracy = 0) ∧
    (runBenchmark [mkOkCase "img1.png", degradedCase]).successful_count +
        (runBenchmark [mkOkCase "img1.png", degradedCase]).failed_count <
      [mkOkCase "img1.png", degradedCase].length ∧
    (runBenchmark [mkOkCase "img1.png", degradedCase]).inference_times.length =
      ([mkOkCase "img1.png", degradedCase].filter completesLoop).length := by
  have h := degraded_scoring_accounting [mkOkCase "img1.png", degradedCase]
  exact ⟨h.1 degradedCase (by decide), h.2.2.2 (by decide), h.2.2.1⟩

/-- Counterexample to claim C1: all three inference runs of
`markerMissingCase` succeed and the scoring call executes but its output
lacks the `SINGLE_ACC: ` marker, yet the program emits no
`PER_IMAGE_RESULT` record at all for the image (the claim requires one
with accuracy 0.0). -/
theorem scoring_marker_missing_no_record :
    completesLoop markerMissingCase = true ∧
    markerMissingCase.scoring.execOk = true ∧
    findSuffixAfter singleAccMarker markerMissingCase.scoring.output = none ∧
    (runBenchmark [markerMissingCase]).records = [] := by decide

/-- Claim C1 as amended: when the three runs succeed and the scoring call
fails to execute (nonzero exit), a record with accuracy exactly 0.0 and
the correct performance fields is emitted and neither counter moves; when
the call executes but its output lacks the marker, no record is emitted
and the image is counted successful; in both situations the batch
continues with the remaining images. -/
theorem scoring_failure_degradation (pre post : List ImageCase) (c : ImageCase)
    (times : List ℚ) (finals : List (List Char))
    (hloop : runRepetitionLoop c.predict = some (times, finals)) :
    (c.scoring.execOk = false →
        recordOf c = some ⟨basenameOf c.path, avgLatency times,
          avgFps (avgLatency times),
          charsPerSecond (countTotalChars finals) (avgLatency times),
          countTotalChars finals, 0⟩ ∧
        timeOf c = some (avgLatency times) ∧
        succIncr c = 0 ∧ failIncr c = 0) ∧
    (c.scoring.execOk = true →
        findSuffixAfter singleAccMarker c.scoring.output = none →
        recordOf c = none ∧ succIncr c = 1 ∧ failIncr c = 0) ∧
    (runBenchmark (pre ++ c :: post)).records =
      pre.filterMap recordOf ++ (recordOf c).toList ++ post.filterMap recordOf := by
  refine ⟨?_, ?_, ?_⟩
  · intro hexec
    refine ⟨?_, ?_, ?_, ?_⟩
    · unfold recordOf
      rw [hloop]
      simp [hexec]
    · unfold timeOf
      rw [hloop]
    · unfold succIncr
      rw [hloop]
      simp [hexec]
    · unfold failIncr
      rw [hloop]
  · intro hexec hmarker
    refine ⟨?_, ?_, ?_⟩
    · unfold recordOf
      rw [hloop]
      simp [hexec, hmarker]
    · unfold succIncr
      rw [hloop]
      simp [hexec]
    · unfold failIncr
      rw [hloop]
  · rw [runBenchmark_eq]
    simp only [List.filterMap_append, List.filterMap_cons]
    cases recordOf c <;> simp

/-- Witness for the amended claim C1: a degraded image between no
predecessor and one healthy successor emits its accuracy-0 record and the
batch continues. -/
theorem scoring_failure_degradation_witness :
    (degradedCase.scoring.execOk = false →
        recordOf degradedCase = some ⟨basenameOf degradedCase.path,
          avgLatency [250, 250, 250],
          avgFps (avgLatency [250, 250, 250]),
          charsPerSecond (countTotalChars []) (avgLatency [250, 250, 250]),
          countTotalChars [], 0⟩ ∧
        timeOf degradedCase = some (avgLatency [250, 250, 250]) ∧
        succIncr degradedCase = 0 ∧ failIncr degradedCase = 0) ∧
    (degradedCase.scoring.execOk = true →
        findSuffixAfter singleAccMarker degradedCase.scoring.output = none →
        recordOf degradedCase = none ∧ succIncr degradedCase = 1 ∧
        failIncr degradedCase = 0) ∧
    (runBenchmark ([] ++ degradedCase :: [mkOkCase "img1.png"])).records =
      [].filterMap recordOf ++ (recordOf degradedCase).toList ++
        [mkOkCase "img1.png"].filterMap recordOf :=
  scoring_failure_degradation [] [mkOkCase "img1.png"] degradedCase
    [250, 250, 250] [] (by rfl)

/-- A left fold of `min` is bounded by its starting value. -/
theorem foldl_min_le_init : ∀ (l : List ℚ) (a : ℚ), l.foldl min a ≤ a
  | [], a => le_refl a
  | b :: l, a => le_trans (foldl_min_le_init l (min a b)) (min_le_left a b)

/-- A left fold of `min` is bounded by every element of the list. -/
theorem foldl_min_le_mem : ∀ (l : List ℚ) (a x : ℚ), x ∈ l → l.foldl min a ≤ x
  | [], _, x, hx => absurd hx (List.not_mem_nil x)
  | b :: l, a, x, hx => by
    rw [List.foldl_cons]
    rcases List.mem_cons.mp hx with h | h
    · rw [h]
      exact le_trans (foldl_min_le_init l (min a b)) (min_le_right a b)
    · exact foldl_min_le_mem l (min a b) x h

/-- A left fold of `min` is the start value or a list element. -/
theorem foldl_min_mem : ∀ (l : List ℚ) (a : ℚ),
    l.foldl min a = a ∨ l.foldl min a ∈ l
  | [], a => Or.inl rfl
  | b :: l, a => by
    rw [List.foldl_cons]
    rcases foldl_min_mem l (min a b) with h | h
    · rcases min_choice a b with hm | hm
      · exact Or.inl (h.trans hm)
      · exact Or.inr (List.mem_cons.mpr (Or.inl (h.trans hm)))
    · exact Or.inr (List.mem_cons.mpr (Or.inr h))

/-- A left fold of `max` dominates its starting value. -/
theorem foldl_max_ge_init : ∀ (l : List ℚ) (a : ℚ), a ≤ l.foldl max a
  | [], a => le_refl a
  | b :: l, a => le_trans (le_max_left a b) (foldl_max_ge_init l (max a b))

/-- A left fold of `max` dominates every element of the list. -/
theorem foldl_max_ge_mem : ∀ (l : List ℚ) (a x : ℚ), x ∈ l → x ≤ l.foldl max a
  | [], _, x, hx => absurd hx (List.not_mem_nil x)
  | b :: l, a, x, hx => by
    rw [List.foldl_cons]
    rcases List.mem_cons.mp hx with h | h
    · rw [h]
      exact le_trans (le_max_right a b) (foldl_max_ge_init l (max a b))
    · exact foldl_max_ge_mem l (max a b) x h

/-- A left fold of `max` is the start value or a list element. -/
theorem foldl_max_mem : ∀ (l : List ℚ) (a : ℚ),
    l.foldl max a = a ∨ l.foldl max a ∈ l
  | [], a => Or.inl rfl
  | b :: l, a => by
    rw [List.foldl_cons]
    rcases foldl_max_mem l (max a b) with h | h
    · rcases max_choice a b with hm | hm
      · exact Or.inl (h.trans hm)
      · exact Or.inr (List.mem_cons.mpr (Or.inl (h.trans hm)))
    · exact Or.inr (List.mem_cons.mpr (Or.inr h))

/-- The summary on a nonempty latency list, field by field. -/
theorem mkSummary_spec (st : BatchState) (n : ℕ) (t0 : ℚ) (rest : List ℚ)
    (hT : st.inference_times = t0 :: rest) :
    ∃ s, mkSummary st n = some s ∧
      s.total_inference_time = st.inference_times.sum ∧
      s.avg_inference_time = st.inference_times.sum / (st.inference_times.length : ℚ) ∧
      (s.min_time ∈ st.inference_times ∧ ∀ x ∈ st.inference_times, s.min_time ≤ x) ∧
      (s.max_time ∈ st.inference_times ∧ ∀ x ∈ st.inference_times, x ≤ s.max_time) ∧
      s.avg_fps = 1000 / s.avg_inference_time ∧
      s.total_fps = (st.successful_count : ℚ) * 1000 / st.inference_times.sum ∧
      s.success_rate = 100 * (st.successful_count : ℚ) / (n : ℚ) := by
  unfold mkSummary
  rw [hT]
  refine ⟨_, rfl, rfl, rfl, ⟨?_, ?_⟩, ⟨?_, ?_⟩, rfl, rfl, rfl⟩
  · rcases foldl_min_mem (t0 :: rest) t0 with h | h
    · rw [h]; exact List.mem_cons_self t0 rest
    · exact h
  · intro x hx
    exact foldl_min_le_mem (t0 :: rest) t0 x hx
  · rcases foldl_max_mem (t0 :: rest) t0 with h | h
    · rw [h]; exact List.mem_cons_self t0 rest
    · exact h
  · intro x hx
    exact foldl_max_ge_mem (t0 :: rest) t0 x hx

/-- Claim C3: with at least one image past its repetition loop, the
summary's average inference time is the arithmetic mean of the collected
per-image average latencies (which are exactly those of the images that
completed the loop), min and max are taken over that same list,
per-image-average FPS is 1000 divided by that average (not an average of
per-image FPS values), and batch throughput FPS is
`successful_count * 1000` divided by the sum of the collected
latencies. -/
theorem batch_summary_formulas (cases : List ImageCase) (totalImages : ℕ)
    (h : (runBenchmark cases).inference_times ≠ []) :
    ∃ s, mkSummary (runBenchmark cases) totalImages = some s ∧
      (runBenchmark cases).inference_times = cases.filterMap timeOf ∧
      s.avg_inference_time = ((runBenchmark cases).inference_times).sum /
        (((runBenchmark cases).inference_times).length : ℚ) ∧
      (s.min_time ∈ (runBenchmark cases).inference_times ∧
        ∀ x ∈ (runBenchmark cases).inference_times, s.min_time ≤ x) ∧
      (s.max_time ∈ (runBenchmark cases).inference_times ∧
        ∀ x ∈ (runBenchmark cases).inference_times, x ≤ s.max_time) ∧
      s.avg_fps = 1000 / s.avg_inference_time ∧
      s.total_fps = ((runBenchmark cases).successful_count : ℚ) * 1000 /
        ((runBenchmark cases).inference_times).sum := by
  cases hT : (runBenchmark cases).inference_times with
  | nil => exact absurd hT h
  | cons t0 rest =>
    obtain ⟨s, hs, _, havg, hmin, hmax, hfps, htot, _⟩ :=
      mkSummary_spec (runBenchmark cases) totalImages t0 rest hT
    rw [hT] at havg hmin hmax htot
    refine ⟨s, hs, ?_, havg, hmin, hmax, hfps, htot⟩
    rw [← hT, runBenchmark_eq]

/-- Witness for claim C3: one healthy and one degraded image give a
defined summary with all stated formulas. -/
theorem batch_summary_formulas_witness :
    ∃ s, mkSummary (runBenchmark [mkOkCase "img1.png", degradedCase]) 2 = some s ∧
      (runBenchmark [mkOkCase "img1.png", degradedCase]).inference_times =
        [mkOkCase "img1.png", degradedCase].filterMap timeOf ∧
      s.avg_inference_time =
        ((runBenchmark [mkOkCase "img1.png", degradedCase]).inference_times).sum /
        (((runBenchmark [mkOkCase "img1.png", degradedCase]).inference_times).length : ℚ) ∧
      (s.min_time ∈ (runBenchmark [mkOkCase "img1.png", degradedCase]).inference_times ∧
        ∀ x ∈ (runBenchmark [mkOkCase "img1.png", degradedCase]).inference_times,
          s.min_time ≤ x) ∧
      (s.max_time ∈ (runBenchmark [mkOkCase "img1.png", degradedCase]).inference_times ∧
        ∀ x ∈ (runBenchmark [mkOkCase "img1.png", degradedCase]).inference_times,
          x ≤ s.max_time) ∧
      s.avg_fps = 1000 / s.avg_inference_time ∧
      s.total_fps =
        ((runBenchmark [mkOkCase "img1.png", degradedCase]).successful_count : ℚ) * 1000 /
        ((runBenchmark [mkOkCase "img1.png", degradedCase]).inference_times).sum :=
  batch_summary_formulas [mkOkCase "img1.png", degradedCase] 2 (by decide)

/-- Counterexample to claim C5: with no command-line arguments, zero
images failed processing (no image was processed at all) yet the exit
code is 1, refuting the claimed equivalence between exit code 0 and zero
failed images. -/
theorem exit_code_counterexample :
    exitCode [] nilOracle = 1 ∧ (batchOf [] nilOracle).failed_count = 0 := by
  constructor
  · rfl
  · rfl

/-- Claim C5 as amended: the exit code is always 0 or 1, and it is 0
exactly when at least one argument was given, at least one image was
discovered, and zero images failed processing; in particular it is 1 in
each of the three claimed cases. -/
theorem exit_code_amended (args : List (List Char × ArgTarget))
    (oracle : List Char → (ℕ → RunResult) × ScoringOutcome) :
    (exitCode args oracle = 0 ↔
      (args ≠ [] ∧ (collectImagePaths args).1 ≠ [] ∧
        (batchOf args oracle).failed_count = 0)) ∧
    (exitCode args oracle = 0 ∨ exitCode args oracle = 1) := by
  unfold exitCode batchOf
  by_cases h1 : args.isEmpty
  · have h1e : args = [] := List.isEmpty_iff.mp h1
    simp [h1, h1e]
  · have h1e : ¬args = [] := fun he => h1 (by rw [he]; rfl)
    by_cases h2 : (collectImagePaths args).1.isEmpty
    · have h2e : (collectImagePaths args).1 = [] := List.isEmpty_iff.mp h2
      simp [h1, h2, h2e]
    · have h2e : ¬(collectImagePaths args).1 = [] := fun he => h2 (by rw [he]; rfl)
      by_cases h3 :
        (runBenchmark (casesOf oracle (collectImagePaths args).1)).failed_count > 0
      · rw [if_neg h1, if_neg h1, if_neg h2, if_pos h3]
        constructor
        · constructor
          · intro hc
            exact absurd hc one_ne_zero
          · rintro ⟨-, -, hz⟩
            omega
        · exact Or.inr rfl
      · rw [if_neg h1, if_neg h1, if_neg h2, if_neg h3]
        constructor
        · constructor
          · intro _
            exact ⟨h1e, h2e, by omega⟩
          · intro _
            rfl
        · exact Or.inl rfl

/-- Claim C10: a subdirectory on which `opendir` fails is skipped
silently — the traversal of such a directory yields nothing, its presence
among a parent's entries changes nothing (its contents are absent from the
discovered list), and a directory argument never contributes a warning
(only invalid top-level arguments do, through `collectArg`). -/
theorem unopenable_directory_silent :
    (∀ dirPath entries, collectImagesFromDirectory dirPath false entries = []) ∧
    (∀ dirPath name sub, collectEntry dirPath (.dir name false sub) = []) ∧
    (∀ dirPath pre post name sub,
      collectImagesFromDirectory dirPath true (pre ++ .dir name false sub :: post) =
        collectImagesFromDirectory dirPath true (pre ++ post)) ∧
    (∀ p op entries, (collectArg (p, .dir op entries)).2 = []) := by
  have h2 : ∀ dirPath name sub, collectEntry dirPath (FSNode.dir name false sub) = [] := by
    intro dirPath name sub
    rw [collectEntry]
    split
    · rfl
    · rfl
  refine ⟨?_, h2, ?_, ?_⟩
  · intro dirPath entries
    rfl
  · intro dirPath pre post name sub
    unfold collectImagesFromDirectory
    rw [if_pos rfl, if_pos rfl, List.map_append, List.map_cons, List.map_append,
      List.flatten_append, List.flatten_cons, List.flatten_append, h2]
    rfl
  · intro p op entries
    rfl

/-- The suffix returned by `suffixFromLastChar` starts with the searched
character. -/
theorem suffixFromLastChar_shape (t : Char) :
    ∀ (cs s : List Char), suffixFromLastChar t cs = some s → ∃ s2, s = t :: s2
  | [], s, h => by simp [suffixFromLastChar] at h
  | c :: rest, s, h => by
    rw [suffixFromLastChar] at h
    cases hr : suffixFromLastChar t rest with
    | some s0 =>
      rw [hr] at h
      simp only [Option.some.injEq] at h
      exact h ▸ suffixFromLastChar_shape t rest s0 hr
    | none =>
      rw [hr] at h
      by_cases hc : c = t
      · rw [if_pos hc] at h
        simp only [Option.some.injEq] at h
        exact ⟨rest, by rw [← h, hc]⟩
      · rw [if_neg hc] at h
        exact absurd h (by simp)

/-- Prepending the same head preserves boolean list equality. -/
theorem dot_cons_beq (x y : List Char) : (('.' :: x) == ('.' :: y)) = (x == y) := by
  show (('.' == '.') && (x == y)) = (x == y)
  simp

/-- The source's dot-inclusive lowercase extension test agrees with the
spec's dotless description of the whitelist. -/
theorem isImageFile_eq_specExt (cs : List Char) :
    isImageFile cs = specExtMatches cs := by
  unfold isImageFile specExtMatches
  cases h : suffixFromLastChar '.' cs with
  | none => rfl
  | some s =>
    obtain ⟨s2, rfl⟩ := suffixFromLastChar_shape '.' cs s h
    simp only [List.map_cons, List.drop_succ_cons, List.drop_zero]
    rw [show asciiToLower '.' = '.' from rfl]
    rw [show ".jpg".toList = '.' :: "jpg".toList from rfl,
        show ".jpeg".toList = '.' :: "jpeg".toList from rfl,
        show ".png".toList = '.' :: "png".toList from rfl,
        show ".bmp".toList = '.' :: "bmp".toList from rfl,
        show ".tiff".toList = '.' :: "tiff".toList from rfl]
    rw [dot_cons_beq, dot_cons_beq, dot_cons_beq, dot_cons_beq, dot_cons_beq]

/-- Filtering a flattened list filters each block. -/
theorem filter_flatten_eq (f : List Char → Bool) :
    ∀ (L : List (List (List Char))), L.flatten.filter f = (L.map (List.filter f)).flatten
  | [] => rfl
  | b :: L => by
    rw [List.flatten_cons, List.filter_append, filter_flatten_eq f L, List.map_cons,
      List.flatten_cons]

/-- Well-formedness of a directory node, unfolded. -/
theorem wf_dir_iff (name : List Char) (op : Bool) (sub : List FSNode) :
    (FSNode.dir name op sub).wf = true ↔
      (¬name = ['.'] ∧ ¬name = ['.', '.'] ∧ op = true ∧ ∀ x ∈ sub, x.wf = true) := by
  rw [FSNode.wf]
  constructor
  · intro h
    simp only [Bool.and_eq_true, beq_iff_eq, Bool.not_eq_true', List.all_eq_true] at h
    obtain ⟨⟨⟨h1, h2⟩, h3⟩, h4⟩ := h
    refine ⟨?_, ?_, h3, ?_⟩
    · intro he
      rw [he] at h1
      simp at h1
    · intro he
      rw [he] at h2
      simp at h2
    · intro x hx
      exact h4 ⟨x, hx⟩ (List.mem_attach sub ⟨x, hx⟩)
  · intro ⟨h1, h2, h3, h4⟩
    simp only [Bool.and_eq_true, beq_iff_eq, Bool.not_eq_true', List.all_eq_true]
    refine ⟨⟨⟨?_, ?_⟩, h3⟩, ?_⟩
    · revert h1
      cases hd : name == ['.'] with
      | true => intro h1; exact absurd (by simpa using hd) h1
      | false => intro _; rfl
    · revert h2
      cases hd : name == ['.', '.'] with
      | true => intro h2; exact absurd (by simpa using hd) h2
      | false => intro _; rfl
    · intro e _
      exact h4 e.1 e.2

/-- On a well-formed node the `readdir`-loop body keeps exactly the
regular files, at any depth, whose full path passes `isImageFile`. -/
theorem collectEntry_eq_spec :
    ∀ (p : List Char) (n : FSNode), n.wf = true →
      collectEntry p n = (specFileEntry p n).filter isImageFile := by
  intro p n
  induction p, n using collectEntry.induct with
  | case1 dirPath name regular hdot =>
    intro hwf
    rw [FSNode.wf] at hwf
    rcases hdot with hd | hd
    · rw [hd] at hwf
      simp at hwf
    · rw [hd] at hwf
      simp at hwf
  | case2 dirPath name regular hdot hkeep =>
    intro _
    rw [collectEntry, specFileEntry, if_neg hdot, if_pos hkeep, if_pos hkeep.1]
    rw [List.filter_cons]
    simp [hkeep.2]
  | case3 dirPath name regular hdot hkeep =>
    intro _
    rw [collectEntry, specFileEntry, if_neg hdot, if_neg hkeep]
    by_cases hreg : regular = true
    · have himg : ¬isImageFile (dirPath ++ '/' :: name) = true := by
        intro himg
        exact hkeep ⟨hreg, himg⟩
      rw [if_pos hreg, List.filter_cons]
      simp [himg]
    · rw [if_neg hreg]
      rfl
  | case4 dirPath name op sub hdot =>
    intro hwf
    rcases (wf_dir_iff name op sub).mp hwf with ⟨h1, h2, _, _⟩
    rcases hdot with hd | hd
    · exact absurd hd h1
    · exact absurd hd h2
  | case5 dirPath name sub hdot ih =>
    intro hwf
    rcases (wf_dir_iff name true sub).mp hwf with ⟨_, _, _, h4⟩
    rw [collectEntry, specFileEntry, if_neg hdot, if_pos rfl]
    rw [filter_flatten_eq, List.map_map]
    congr 1
    apply List.map_congr_left
    intro e _
    exact ih e (h4 e.1 e.2)
  | case6 dirPath name op sub hdot hop =>
    intro hwf
    rcases (wf_dir_iff name op sub).mp hwf with ⟨_, _, h3, _⟩
    exact absurd h3 hop

/-- Traversal of a well-formed openable directory collects exactly the
whitelisted regular files beneath it. -/
theorem collectDir_eq_spec (p : List Char) (entries : List FSNode)
    (h : ∀ x ∈ entries, x.wf = true) :
    collectImagesFromDirectory p true entries =
      (specFilesUnder p entries).filter isImageFile := by
  unfold collectImagesFromDirectory specFilesUnder
  rw [if_pos rfl, filter_flatten_eq, List.map_map]
  congr 1
  apply List.map_congr_left
  intro x hx
  exact collectEntry_eq_spec p x (h x hx)

/-- Claim C6: the extension test is the case-insensitive after-the-last-dot
whitelist; a directory argument contributes exactly the whitelisted
regular files beneath it (recursively) and no warning; a whitelisted
regular-file argument is included directly; any other argument is skipped
with one warning on the diagnostic stream while the remaining arguments
are still processed. -/
theorem image_discovery_contract :
    (∀ cs, isImageFile cs = specExtMatches cs) ∧
    (∀ p entries, (∀ x ∈ entries, x.wf = true) →
        collectArg (p, .dir true entries) =
          ((specFilesUnder p entries).filter isImageFile, [])) ∧
    (∀ p r, r = true → isImageFile p = true →
        collectArg (p, .file r) = ([p], [])) ∧
    (∀ p, collectArg (p, .missing) = ([], [p])) ∧
    (∀ p r, ¬(r = true ∧ isImageFile p = true) →
        collectArg (p, .file r) = ([], [p])) ∧
    (∀ a rest, collectImagePaths (a :: rest) =
        ((collectArg a).1 ++ (collectImagePaths rest).1,
         (collectArg a).2 ++ (collectImagePaths rest).2)) := by
  refine ⟨isImageFile_eq_specExt, ?_, ?_, ?_, ?_, ?_⟩
  · intro p entries h
    show (collectImagesFromDirectory p true entries, ([] : List (List Char))) = _
    rw [collectDir_eq_spec p entries h]
  · intro p r hr himg
    show (if r = true ∧ isImageFile p = true then ([p], ([] : List (List Char)))
          else ([], [p])) = ([p], [])
    rw [if_pos ⟨hr, himg⟩]
  · intro p
    rfl
  · intro p r hn
    show (if r = true ∧ isImageFile p = true then ([p], ([] : List (List Char)))
          else ([], [p])) = ([], [p])
    rw [if_neg hn]
  · intro a rest
    rfl

/-- Witness for claim C6: the contract instantiated on a concrete
directory, a matching file argument, and a skipped argument. -/
theorem image_discovery_contract_witness :
    isImageFile "photos/Cat.JPG".toList = specExtMatches "photos/Cat.JPG".toList ∧
    collectArg ("d".toList, .dir true flatEntries) =
      ((specFilesUnder "d".toList flatEntries).filter isImageFile, []) ∧
    collectArg ("x.png".toList, .file true) = (["x.png".toList], []) ∧
    collectArg ("gone".toList, .missing) = ([], ["gone".toList]) ∧
    collectArg ("x.txt".toList, .file true) = ([], ["x.txt".toList]) := by
  have h := image_discovery_contract
  refine ⟨h.1 "photos/Cat.JPG".toList, ?_, ?_, h.2.2.2.1 "gone".toList, ?_⟩
  · apply h.2.1 "d".toList flatEntries
    intro x hx
    simp only [flatEntries, List.mem_cons, List.not_mem_nil, or_false] at hx
    rcases hx with h1 | h1 | h1 <;>
      · subst h1
        rw [FSNode.wf]
        rfl
  · exact h.2.2.1 "x.png".toList true rfl (by decide)
  · exact h.2.2.2.2.1 "x.txt".toList true (by decide)

/-- Searching for a pattern in a text that begins with it yields the text
just after the pattern. -/
theorem findSuffixAfter_append_self (pat x : List Char) (hp : pat ≠ []) :
    findSuffixAfter pat (pat ++ x) = some x := by
  cases pat with
  | nil => exact absurd rfl hp
  | cons c p =>
    rw [List.cons_append, findSuffixAfter]
    rw [if_pos ?hpre]
    case hpre =>
      rw [← List.cons_append, List.isPrefixOf_iff_prefix]
      exact List.prefix_append (c :: p) x
    rw [← List.cons_append, List.drop_left]

/-- `takeWhile` passes over a block on which the predicate holds. -/
theorem takeWhile_append_all (p : Char → Bool) :
    ∀ (l m : List Char), (∀ c ∈ l, p c = true) →
      (l ++ m).takeWhile p = l ++ m.takeWhile p
  | [], m, _ => rfl
  | a :: l, m, h => by
    rw [List.cons_append, List.takeWhile_cons, if_pos (h a (List.mem_cons_self a l)),
      takeWhile_append_all p l m (fun c hc => h c (List.mem_cons_of_mem a hc)),
      List.cons_append]

/-- `dropWhile` passes over a block on which the predicate holds. -/
theorem dropWhile_append_all (p : Char → Bool) :
    ∀ (l m : List Char), (∀ c ∈ l, p c = true) →
      (l ++ m).dropWhile p = m.dropWhile p
  | [], m, _ => rfl
  | a :: l, m, h => by
    rw [List.cons_append, List.dropWhile_cons, if_pos (h a (List.mem_cons_self a l))]
    exact dropWhile_append_all p l m (fun c hc => h c (List.mem_cons_of_mem a hc))

/-- Every character of a serialized `rec_texts` array content is a quote,
a separator, or a character of one of the serialized transcripts. -/
theorem quoteJoin_chars :
    ∀ (ts : List (List Char)) (c : Char), c ∈ quoteJoin ts →
      c = '"' ∨ c = ',' ∨ c = ' ' ∨ ∃ t ∈ ts, c ∈ t
  | [], c, h => absurd h (List.not_mem_nil c)
  | [t], c, h => by
    replace h : c ∈ '"' :: (t ++ ['"']) := h
    rcases List.mem_cons.mp h with h1 | h1
    · exact Or.inl h1
    · rcases List.mem_append.mp h1 with h2 | h2
      · exact Or.inr (Or.inr (Or.inr ⟨t, List.mem_cons_self t [], h2⟩))
      · rcases List.mem_singleton.mp h2 with rfl
        exact Or.inl rfl
  | t :: t2 :: rest, c, h => by
    replace h : c ∈ '"' :: (t ++ '"' :: ',' :: ' ' :: quoteJoin (t2 :: rest)) := h
    rcases List.mem_cons.mp h with h1 | h1
    · exact Or.inl h1
    · rcases List.mem_append.mp h1 with h2 | h2
      · exact Or.inr (Or.inr (Or.inr ⟨t, List.mem_cons_self t (t2 :: rest), h2⟩))
      · rcases List.mem_cons.mp h2 with h3 | h3
        · exact Or.inl h3
        · rcases List.mem_cons.mp h3 with h4 | h4
          · exact Or.inr (Or.inl h4)
          · rcases List.mem_cons.mp h4 with h5 | h5
            · exact Or.inr (Or.inr (Or.inl h5))
            · rcases quoteJoin_chars (t2 :: rest) c h5 with h6 | h6 | h6 | ⟨t3, ht3, hc3⟩
              · exact Or.inl h6
              · exact Or.inr (Or.inl h6)
              · exact Or.inr (Or.inr (Or.inl h6))
              · exact Or.inr (Or.inr (Or.inr ⟨t3, List.mem_cons_of_mem t ht3, hc3⟩))

/-- Unfolding of the quote scan at an opening quote with a closing
quote. -/
theorem splitQuoted_cons_quote_cons (rest : List Char) (a : Char) (after : List Char)
    (hd : rest.dropWhile (fun x => x ≠ '"') = a :: after) :
    splitQuoted ('"' :: rest) =
      (rest.takeWhile (fun x => x ≠ '"')) :: splitQuoted after := by
  rw [splitQuoted, if_pos rfl]
  split
  next heq =>
    rw [hd] at heq
    exact absurd heq (by simp)
  next b after2 heq =>
    rw [hd] at heq
    injection heq with h1 h2
    rw [h2]

/-- Unfolding of the quote scan at a non-quote character. -/
theorem splitQuoted_cons_other (c : Char) (rest : List Char) (h : ¬c = '"') :
    splitQuoted (c :: rest) = splitQuoted rest := by
  rw [splitQuoted]
  rw [if_neg h]

/-- The quote scan recovers exactly the serialized transcripts from a
`rec_texts` array content, provided no transcript contains a raw quote. -/
theorem splitQuoted_quoteJoin :
    ∀ (ts : List (List Char)), (∀ t ∈ ts, '"' ∉ t) →
      splitQuoted (quoteJoin ts) = ts
  | [], _ => by
    show splitQuoted [] = ([] : List (List Char))
    rw [splitQuoted]
  | [t], h => by
    have hq : ∀ c ∈ t, (decide (c ≠ '"')) = true := by
      intro c hc
      rw [decide_eq_true_eq]
      intro he
      exact h t (List.mem_cons_self t []) (he ▸ hc)
    show splitQuoted ('"' :: (t ++ ['"'])) = [t]
    have hdrop : (t ++ ['"']).dropWhile (fun x => x ≠ '"') = '"' :: [] := by
      rw [dropWhile_append_all _ t ['"'] hq]
      rfl
    rw [splitQuoted_cons_quote_cons (t ++ ['"']) '"' [] hdrop,
      takeWhile_append_all _ t ['"'] hq]
    rw [List.takeWhile_cons, if_neg (by simp), List.append_nil, splitQuoted]
  | t :: t2 :: rest, h => by
    have hq : ∀ c ∈ t, (decide (c ≠ '"')) = true := by
      intro c hc
      rw [decide_eq_true_eq]
      intro he
      exact h t (List.mem_cons_self t (t2 :: rest)) (he ▸ hc)
    show splitQuoted ('"' :: (t ++ '"' :: ',' :: ' ' :: quoteJoin (t2 :: rest))) =
      t :: t2 :: rest
    have hdrop : (t ++ '"' :: ',' :: ' ' :: quoteJoin (t2 :: rest)).dropWhile
        (fun x => x ≠ '"') = '"' :: (',' :: ' ' :: quoteJoin (t2 :: rest)) := by
      rw [dropWhile_append_all _ t _ hq]
      rfl
    rw [splitQuoted_cons_quote_cons _ '"' (',' :: ' ' :: quoteJoin (t2 :: rest)) hdrop,
      takeWhile_append_all _ t _ hq]
    rw [List.takeWhile_cons, if_neg (by simp), List.append_nil,
      splitQuoted_cons_other ',' _ (by decide),
      splitQuoted_cons_other ' ' _ (by decide),
      splitQuoted_quoteJoin (t2 :: rest)
        (fun u hu => h u (List.mem_cons_of_mem t hu))]

/-- Character counting on a well-formed serialized result: the code's
count over a `rec_texts` array equals the sum over the serialized
transcripts of their non-backslash character counts. -/
theorem countCharsInJson_mkRecTextsJson (ts : List (List Char))
    (h : ∀ t ∈ ts, '"' ∉ t ∧ ']' ∉ t) :
    countCharsInJson (mkRecTextsJson ts) = (ts.map countTextChars).sum := by
  have hnb : ∀ c ∈ quoteJoin ts, (decide (c ≠ ']')) = true := by
    intro c hc
    rw [decide_eq_true_eq]
    intro he
    rcases quoteJoin_chars ts c hc with h1 | h1 | h1 | ⟨t, ht, hct⟩
    · rw [he] at h1
      exact absurd h1 (by decide)
    · rw [he] at h1
      exact absurd h1 (by decide)
    · rw [he] at h1
      exact absurd h1 (by decide)
    · exact (h t ht).2 (he ▸ hct)
  unfold countCharsInJson mkRecTextsJson
  rw [List.append_assoc,
    findSuffixAfter_append_self recTextsMarker (quoteJoin ts ++ [']']) (by decide)]
  show (if (quoteJoin ts ++ [']']).contains ']' = true then
      ((splitQuoted ((quoteJoin ts ++ [']']).takeWhile (fun c => c ≠ ']'))).map
        countTextChars).sum
    else 0) = (ts.map countTextChars).sum
  rw [if_pos (List.elem_eq_true_of_mem
    (List.mem_append_right (quoteJoin ts) (List.mem_singleton.mpr rfl)))]
  rw [takeWhile_append_all _ (quoteJoin ts) [']'] hnb]
  rw [List.takeWhile_cons, if_neg (by simp), List.append_nil]
  rw [splitQuoted_quoteJoin ts (fun t ht => (h t ht).1)]

/-- Counterexample to claim C8: on a serialized transcript of two
backslash characters the code counts 0 (it drops every backslash and
keeps characters that follow one), while the claim's rule — a character
preceded by a backslash counts zero width — counts 1; the two counts
differ. -/
theorem escaped_char_count_counterexample :
    countCharsInJson backslashJson = 0 ∧
    ([['\\', '\\']].map specEscapedCount).sum = 1 ∧
    ¬countCharsInJson backslashJson = ([['\\', '\\']].map specEscapedCount).sum := by
  have h0 : countCharsInJson backslashJson = 0 := by
    rw [backslashJson, countCharsInJson_mkRecTextsJson [['\\', '\\']] (by decide)]
    decide
  refine ⟨h0, by decide, ?_⟩
  rw [h0]
  decide

/-- Claim C8 as amended: the total character count sums, over every
serialized transcript in the captured first-run result, the count of its
non-backslash characters — each backslash is excluded, while the
character an escape precedes still counts one. -/
theorem char_count_excludes_backslashes (ts : List (List Char))
    (h : ∀ t ∈ ts, '"' ∉ t ∧ ']' ∉ t) :
    countTotalChars [mkRecTextsJson ts] =
      (ts.map (fun t => (t.filter (fun c => c ≠ '\\')).length)).sum := by
  show countCharsInJson (mkRecTextsJson ts) + 0 = _
  rw [Nat.add_zero, countCharsInJson_mkRecTextsJson ts h]
  rfl

/-- Witness for the amended claim C8 on transcripts containing an escape
sequence. -/
theorem char_count_excludes_backslashes_witness :
    countTotalChars [mkRecTextsJson ["ab".toList, ['c', '\\', 'n', 'd']]] =
      (["ab".toList, ['c', '\\', 'n', 'd']].map
        (fun t => (t.filter (fun c => c ≠ '\\')).length)).sum ∧
    (["ab".toList, ['c', '\\', 'n', 'd']].map
      (fun t => (t.filter (fun c => c ≠ '\\')).length)).sum = 5 :=
  ⟨char_count_excludes_backslashes ["ab".toList, ['c', '\\', 'n', 'd']] (by decide),
   by decide⟩

end Benchmark
